import Mathlib

/-!
ReactOS: registry hive data layout (`lib/cmlib/hivedata.h`) and the
kernel-mode test loader (`kmtests/kmtest/kmtest.c`).

A shallow embedding of the cell-handle macros, the cell size predicates, the
byte-packed `HBASE_BLOCK` layout and the two test-list routines `FindTest` and
`ListTests`, followed by the properties proved about them.

Conventions.
* A `ULONG` is a natural number below `2 ^ 32`; every operation that can leave
  that range is reduced modulo `2 ^ 32`.
* A `LONG` is an integer; `IsFreeCell` / `IsUsedCell` only test its sign.
* A C string is the list of its characters without the terminating NUL.
* A pointer that walks an array is an index into the list of the array's
  elements; a read outside the list is a fault.
-/

namespace HiveData

/-! Hive types -/

def HFILE_TYPE_PRIMARY : Nat := 0
def HFILE_TYPE_ALTERNATE : Nat := 1
def HFILE_TYPE_LOG : Nat := 2
def HFILE_TYPE_EXTERNAL : Nat := 3
def HFILE_TYPE_MAX : Nat := 4

/-! Hive sizes -/

def HBLOCK_SIZE : Nat := 0x1000
def HSECTOR_SIZE : Nat := 0x200
def HSECTOR_COUNT : Nat := 8
def HV_BLOCK_SIZE : Nat := 4096
def HV_SIGNATURE : Nat := 0x66676572
def HV_BIN_SIGNATURE : Nat := 0x6e696268

/-! Hive storage -/

def HTYPE_COUNT : Nat := 2

/-- Number of values of a `ULONG` (32 bits). -/
def ULONG_RANGE : Nat := 2 ^ 32

/-- Conversion of an integer constant to `ULONG`, as C does when the constant is
stored in an unsigned 32-bit object. -/
def toULONG (v : Int) : Nat := (v % (ULONG_RANGE : Int)).toNat

/-- The macro `#define HCELL_NIL -1`. -/
def HCELL_NIL : Int := -1

def HCELL_CACHED : Nat := 1

def HCELL_TYPE_MASK : Nat := 0x80000000
def HCELL_BLOCK_MASK : Nat := 0x7ffff000
def HCELL_OFFSET_MASK : Nat := 0x00000fff
def HCELL_TYPE_SHIFT : Nat := 31
def HCELL_BLOCK_SHIFT : Nat := 12
def HCELL_OFFSET_SHIFT : Nat := 0

/-- The macro `#define HvGetCellType(Cell) ((ULONG)((Cell & HCELL_TYPE_MASK) >> HCELL_TYPE_SHIFT))`. -/
def HvGetCellType (Cell : Nat) : Nat :=
  ((Cell &&& HCELL_TYPE_MASK) >>> HCELL_TYPE_SHIFT) % ULONG_RANGE

/-- The enumeration `HSTORAGE_TYPE` with `Stable = 0` and `Volatile = 1`. -/
inductive HSTORAGE_TYPE where
  | Stable
  | Volatile
deriving DecidableEq, Repr

/-- The integer value of an enumerator of `HSTORAGE_TYPE`. -/
def HSTORAGE_TYPE.toULONG : HSTORAGE_TYPE → Nat
  | .Stable => 0
  | .Volatile => 1

/-- Handle construction as the spec's `encode` writes it:
`(class << HCELL_TYPE_SHIFT) | containerOffset | byteOffset`, in `ULONG`
arithmetic. The header declares no such function; this definition follows the
words of the spec and is compared with the decoding macros of the source. -/
def encodeCell (c : HSTORAGE_TYPE) (containerOffset byteOffset : Nat) : Nat :=
  ((c.toULONG <<< HCELL_TYPE_SHIFT) % ULONG_RANGE) ||| containerOffset ||| byteOffset

/-! Cells -/

/-- The structure `HCELL`: its one member is `LONG Size`, negative if used. -/
structure HCELL where
  Size : Int
deriving DecidableEq, Repr

/-- The macro `#define IsFreeCell(Cell)(Cell->Size >= 0)`. -/
def IsFreeCell (Cell : HCELL) : Bool := decide (Cell.Size ≥ 0)

/-- The macro `#define IsUsedCell(Cell)(Cell->Size < 0)`. -/
def IsUsedCell (Cell : HCELL) : Bool := decide (Cell.Size < 0)

/-! Structure layout -/

/-- The C types that occur in `HBASE_BLOCK`. -/
inductive CTYPE where
  | CHAR
  | ULONG
  | HCELL_INDEX
  | LARGE_INTEGER
  | ARRAY (elem : CTYPE) (count : Nat)
deriving DecidableEq, Repr

/-- Modelled from the spec: the widths of the Windows base types (`CHAR`,
`ULONG`, `LARGE_INTEGER`) are declared outside the sources; the spec gives
32-bit integers, a 64-bit timestamp and byte-sized name characters.
`HCELL_INDEX` is `typedef ULONG HCELL_INDEX` in the header. -/
def sizeof : CTYPE → Nat
  | .CHAR => 1
  | .ULONG => 4
  | .HCELL_INDEX => 4
  | .LARGE_INTEGER => 8
  | .ARRAY elem count => count * sizeof elem

/-- The members of `struct _HBASE_BLOCK`. -/
inductive HBASE_BLOCK_FIELD where
  | Signature
  | Sequence1
  | Sequence2
  | TimeStamp
  | Major
  | Minor
  | Type
  | Format
  | RootCell
  | Length
  | Cluster
  | FileName
  | Reserved1
  | CheckSum
  | Reserved2
  | BootType
  | BootRecover
deriving DecidableEq, Repr

/-- The declared type of each member of `HBASE_BLOCK`. -/
def HBASE_BLOCK_FIELD.type : HBASE_BLOCK_FIELD → CTYPE
  | .Signature => .ULONG
  | .Sequence1 => .ULONG
  | .Sequence2 => .ULONG
  | .TimeStamp => .LARGE_INTEGER
  | .Major => .ULONG
  | .Minor => .ULONG
  | .Type => .ULONG
  | .Format => .ULONG
  | .RootCell => .HCELL_INDEX
  | .Length => .ULONG
  | .Cluster => .ULONG
  | .FileName => .ARRAY .CHAR 64
  | .Reserved1 => .ARRAY .ULONG 99
  | .CheckSum => .ULONG
  | .Reserved2 => .ARRAY .ULONG 0x37E
  | .BootType => .ULONG
  | .BootRecover => .ULONG

/-- The members of `HBASE_BLOCK` in declaration order. -/
def HBASE_BLOCK : List HBASE_BLOCK_FIELD :=
  [.Signature, .Sequence1, .Sequence2, .TimeStamp, .Major, .Minor, .Type, .Format,
   .RootCell, .Length, .Cluster, .FileName, .Reserved1, .CheckSum, .Reserved2,
   .BootType, .BootRecover]

/-- Modelled from the spec: `FIELD_OFFSET` and the `pshpack1.h` packing pragma
are not among the sources; the spec says the layout has no implicit padding,
so a member starts where the members declared before it end. -/
def FIELD_OFFSET (members : List HBASE_BLOCK_FIELD) (f : HBASE_BLOCK_FIELD) : Nat :=
  ((members.takeWhile (fun g => decide (g ≠ f))).map (fun g => sizeof g.type)).sum

/-- The macro `#define HV_LOG_HEADER_SIZE FIELD_OFFSET(HBASE_BLOCK, Reserved2)`. -/
def HV_LOG_HEADER_SIZE : Nat := FIELD_OFFSET HBASE_BLOCK .Reserved2

/-- The four bytes of a 32-bit word in little-endian storage order, the byte
order the spec fixes for every multi-byte integer of the format. -/
def littleEndianBytes (w : Nat) : List Nat :=
  [w % 256, w / 256 % 256, w / 65536 % 256, w / 16777216 % 256]

/-! File type, sign flip and structure size -/

/-- The value of `HBASE_BLOCK.Type` that the comment on the member gives for a
primary file: `Registry file type (0 - Primary, 1 - Log)`. -/
def DOCUMENTED_TYPE_PRIMARY : Nat := 0

/-- The value of `HBASE_BLOCK.Type` that the comment on the member gives for a
log file: `Registry file type (0 - Primary, 1 - Log)`. -/
def DOCUMENTED_TYPE_LOG : Nat := 1

/-- Least value of a `LONG` (32-bit signed). -/
def LONG_MIN : Int := -2147483648

/-- Greatest value of a `LONG` (32-bit signed). -/
def LONG_MAX : Int := 2147483647

/-- Reduction of an integer to the range of a `LONG` in 32-bit two's-complement
arithmetic. -/
def toLONG (v : Int) : Int := (v + 2147483648) % 4294967296 - 2147483648

/-- Modelled from the spec: the routine that frees a cell is not among the
sources. The spec says that `free` marks the addressed cell free by flipping
the sign of its size field; the flip is the negation of `Size` in 32-bit
two's-complement arithmetic. -/
def flipSign (Cell : HCELL) : HCELL := ⟨toLONG (-Cell.Size)⟩

/-- The size of a byte-packed structure: the sum of the sizes of its members. -/
def sizeofStruct (members : List HBASE_BLOCK_FIELD) : Nat :=
  (members.map (fun g => sizeof g.type)).sum

end HiveData

namespace Kmtest

/-! Strings and the test table -/

/-- The terminating character of a C string. -/
def NUL : Char := Char.ofNat 0

/-- The contents of a C string hold no NUL: the string ends at the first one. -/
def IsCString (s : List Char) : Prop := NUL ∉ s

instance (s : List Char) : Decidable (IsCString s) := by
  unfold IsCString; exact inferInstance

/-- Modelled from the spec: the declaration of `KMT_TEST` (kmt_test.h) is not
among the sources. Its two members are the ones `kmtest.c` reads: the test name
(`none` is the `NULL` pointer) and the test function (`none` is `NULL`, a
function is identified by its address). -/
structure KMT_TEST where
  TestName : Option (List Char)
  TestFunction : Option Nat
deriving DecidableEq, Repr

/-- The string stored at the start of a character buffer: the characters before
the first NUL. The result is `none` when the buffer holds no NUL, so that
reading the string would run off the buffer. -/
def cstring : List Char → Option (List Char)
  | [] => none
  | c :: rest => if c = NUL then some [] else (cstring rest).map (fun s => c :: s)

/-- The C library function `strcmp` on the contents of two strings: characters
are compared in order by their codes and the end of a string counts as the
code `0`. The result is negative, zero or positive. -/
def strcmp : List Char → List Char → Int
  | [], [] => 0
  | [], b :: _ => 0 - (b.toNat : Int)
  | a :: _, [] => (a.toNat : Int)
  | a :: s, b :: t => if a = b then strcmp s t else (a.toNat : Int) - (b.toNat : Int)

/-- The call `strcmp(TestEntry->TestName, TestName)` on memory: the first
argument is the contents of the table name (its NUL follows the last
character), the second the bytes of the buffer from `TestName` on. Bytes are
compared pairwise up to the first difference or to a NUL in both; the result is
`none` when the comparison needs a byte beyond the buffer. -/
def strcmpAt : List Char → List Char → Option Int
  | [], [] => none
  | [], b :: _ => some (0 - (b.toNat : Int))
  | _ :: _, [] => none
  | a :: s, b :: t =>
    if a = b then (if a = NUL then some 0 else strcmpAt s t)
    else some ((a.toNat : Int) - (b.toNat : Int))

/-! FindTest -/

/-- The statement `if (*TestEntryName == '-') ++TestEntryName;` of `FindTest`. -/
def skipLeadingDash (TestEntryName : List Char) : List Char :=
  match TestEntryName with
  | [] => []
  | c :: rest => if c = '-' then rest else c :: rest

/-- The function `FindTest`. `TestEntry` walks the table from its first element;
the list argument is the part of the table from `TestEntry` on. The comparison
`lstrcmpA` (a Win32 function outside the sources) is a parameter. The outer
`Option` is `none` when the walk leaves the table (no entry with a `NULL` name
was met); the inner `Option` is the returned `PKMT_TESTFUNC`. -/
def FindTest (lstrcmpA : List Char → List Char → Int) :
    List KMT_TEST → List Char → Option (Option Nat)
  | [], _ => none
  | TestEntry :: rest, TestName =>
    match TestEntry.TestName with
    | none => some TestEntry.TestFunction
    | some TestEntryName =>
      if lstrcmpA (skipLeadingDash TestEntryName) TestName = 0 then
        some TestEntry.TestFunction
      else
        FindTest lstrcmpA rest TestName

/-- The name under which the claim looks an entry up: its name with one leading
`-` dropped if there is one. -/
def lookupName (name : List Char) : List Char :=
  if name.head? = some '-' then name.tail else name

/-- The claim's reading of `FindTest`: the test function of the first entry
whose lookup name is the requested name, `NULL` when there is none. -/
def firstMatch (entries : List KMT_TEST) (n : List Char) : Option Nat :=
  match entries.find? (fun e => decide (e.TestName.map lookupName = some n)) with
  | some e => e.TestFunction
  | none => none

/-! ListTests -/

/-- How a run of `ListTests` ends: the function returned a Win32 error code,
or it read outside the test table or outside the bytes of the buffer (`fault`),
or the iteration bound of the model was reached (`unfinished`). -/
inductive Status where
  | returned (Error : Nat)
  | fault
  | unfinished
deriving DecidableEq, Repr

/-- The pointer `NextTestName` handed to `printf`, with the string it points to:
either the name of the table entry with the given index, or the string at the
given offset of `Buffer`. -/
inductive NextTestName where
  | ofEntry (index : Nat) (name : List Char)
  | ofBuffer (offset : Nat) (name : List Char)
deriving DecidableEq, Repr

/-- The string a printed line shows. -/
def NextTestName.text : NextTestName → List Char
  | .ofEntry _ name => name
  | .ofBuffer _ name => name

/-- What a run of `ListTests` did: the names printed by the `printf` of the
loop, in order, and how the run ended. The heading printed by `puts` before
the loop is not a name and is left out. -/
structure Outcome where
  printed : List NextTestName
  status : Status
deriving DecidableEq, Repr

/-- One more line printed before the rest of the run. -/
def Outcome.print (line : NextTestName) (o : Outcome) : Outcome :=
  { o with printed := line :: o.printed }

/-- The test of the inner loop: `TestEntry->TestName && *TestEntry->TestName == '-'`. -/
def isHidden (TestEntry : KMT_TEST) : Bool :=
  match TestEntry.TestName with
  | none => false
  | some name => decide (name.head? = some '-')

/-- The inner loop `while (TestEntry->TestName && *TestEntry->TestName == '-') ++TestEntry;`
on the part of the table from `TestEntry` on: the number of increments, or
`none` when the loop leaves the table. -/
def skipHidden : List KMT_TEST → Option Nat
  | [] => none
  | TestEntry :: rest => if isHidden TestEntry then (skipHidden rest).map (fun k => k + 1) else some 0

def ERROR_SUCCESS : Nat := 0

/-- The outer loop of `ListTests`. `TestEntry` is an index into `TestList`,
`TestName` an offset into `Buffer`; the first argument bounds the number of
iterations. The reads happen in the order of the source: `strcmp` compares
before `strlen` measures, and `strlen` runs before the `printf` of the same
iteration, so a line is missing from the output only if the read that faults
comes before its `printf`. -/
def ListTestsLoop (TestList : List KMT_TEST) (Buffer : List Char) :
    Nat → Nat → Nat → Outcome
  | 0, _, _ => ⟨[], .unfinished⟩
  | fuel + 1, TestEntry, TestName =>
    -- while (TestEntry->TestName || *TestName)
    match TestList[TestEntry]? with
    | none => ⟨[], .fault⟩
    | some e0 =>
      let enter : Option Bool :=
        if e0.TestName.isSome then some true
        else (Buffer[TestName]?).map (fun c => decide (c ≠ NUL))
      match enter with
      | none => ⟨[], .fault⟩
      | some false => ⟨[], .returned ERROR_SUCCESS⟩
      | some true =>
        -- tests starting with a '-' should not be listed
        match skipHidden (TestList.drop TestEntry) with
        | none => ⟨[], .fault⟩
        | some k =>
          let TestEntry := TestEntry + k
          match TestList[TestEntry]? with
          | none => ⟨[], .fault⟩
          | some e =>
            match e.TestName with
            | none =>
              -- NextTestName = TestName; TestName += strlen(TestName) + 1;
              match cstring (Buffer.drop TestName) with
              | none => ⟨[], .fault⟩
              | some s =>
                (ListTestsLoop TestList Buffer fuel TestEntry (TestName + s.length + 1)).print
                  (.ofBuffer TestName s)
            | some name =>
              match Buffer[TestName]? with
              | none => ⟨[], .fault⟩
              | some c =>
                if c = NUL then
                  -- NextTestName = TestEntry->TestName; ++TestEntry;
                  (ListTestsLoop TestList Buffer fuel (TestEntry + 1) TestName).print
                    (.ofEntry TestEntry name)
                else
                  -- int Result = strcmp(TestEntry->TestName, TestName);
                  match strcmpAt name (Buffer.drop TestName) with
                  | none => ⟨[], .fault⟩
                  | some Result =>
                    if Result = 0 then
                      -- NextTestName = TestEntry->TestName;
                      -- TestName += strlen(TestName) + 1; ++TestEntry;
                      match cstring (Buffer.drop TestName) with
                      | none => ⟨[], .fault⟩
                      | some s =>
                        (ListTestsLoop TestList Buffer fuel (TestEntry + 1)
                          (TestName + s.length + 1)).print (.ofEntry TestEntry name)
                    else if Result < 0 then
                      -- NextTestName = TestEntry->TestName; ++TestEntry;
                      (ListTestsLoop TestList Buffer fuel (TestEntry + 1) TestName).print
                        (.ofEntry TestEntry name)
                    else
                      -- NextTestName = TestName; TestName += strlen(TestName) + 1;
                      match cstring (Buffer.drop TestName) with
                      | none => ⟨[], .fault⟩
                      | some s =>
                        (ListTestsLoop TestList Buffer fuel TestEntry
                          (TestName + s.length + 1)).print (.ofBuffer TestName s)

/-- The function `ListTests`. The table `TestList` and the result of the
`DeviceIoControl` call are parameters: either the error code the call failed
with, or the bytes it stored in `Buffer`. Every iteration of the loop moves
`TestEntry` or `TestName` forward, so the bound given to the loop is never
reached. -/
def ListTests (TestList : List KMT_TEST) (DeviceIoControl : Except Nat (List Char)) : Outcome :=
  match DeviceIoControl with
  | .error Error => ⟨[], .returned Error⟩
  | .ok Buffer => ListTestsLoop TestList Buffer (TestList.length + Buffer.length + 1) 0 0

/-- A driver name list as the claim describes it: each name followed by NUL,
then one more NUL (the empty string that ends the list). -/
def driverBuffer (names : List (List Char)) : List Char :=
  (names.map (fun n => n ++ [NUL])).flatten ++ [NUL]

/-- A test table as the claim describes it: the named entries, then the entry
with a `NULL` name and a `NULL` function. -/
def testTable (entries : List (List Char × Option Nat)) : List KMT_TEST :=
  entries.map (fun e => ⟨some e.1, e.2⟩) ++ [⟨none, none⟩]

/-- The names of the table that are to be listed: those not starting with `-`. -/
def visibleNames (entries : List (List Char × Option Nat)) : List (List Char) :=
  (entries.map (fun e => e.1)).filter (fun n => decide (n.head? ≠ some '-'))

/-- The last named entry of the table, if there is one, is to be listed. -/
def LastListed (entries : List (List Char × Option Nat)) : Prop :=
  ∀ front e, entries = front ++ [e] → e.1.head? ≠ some '-'

/-- The ascending merge of two name lists in the order of `strcmp`; a name at
the head of both lists is taken once. -/
def mergeNames : List (List Char) → List (List Char) → List (List Char)
  | [], ds => ds
  | v :: vs, [] => v :: vs
  | v :: vs, d :: ds =>
    if strcmp v d = 0 then v :: mergeNames vs ds
    else if strcmp v d < 0 then v :: mergeNames vs (d :: ds)
    else d :: mergeNames (v :: vs) ds
termination_by vs ds => vs.length + ds.length

end Kmtest

/-! Properties of the hive data layout -/

namespace HiveData

theorem and_type_mask (x : Nat) : x &&& HCELL_TYPE_MASK = (x / 2 ^ 31 % 2) * 2 ^ 31 := by
  have h : HCELL_TYPE_MASK = 2 ^ 31 := by decide
  rw [h, Nat.and_two_pow, Nat.testBit_to_div_mod]
  congr 1
  have hlt : x / 2 ^ 31 % 2 < 2 := Nat.mod_lt _ (by decide)
  generalize x / 2 ^ 31 % 2 = y at hlt
  by_cases hy : y = 1
  · simp [hy]
  · have : y = 0 := by omega
    simp [this]

theorem and_offset_mask (x : Nat) : x &&& HCELL_OFFSET_MASK = x % 4096 := by
  have h : HCELL_OFFSET_MASK = 2 ^ 12 - 1 := by decide
  rw [h, Nat.and_pow_two_sub_one_eq_mod]

theorem and_block_mask (x : Nat) :
    x &&& HCELL_BLOCK_MASK = (x / 4096 % 2 ^ 19) * 4096 := by
  have h : HCELL_BLOCK_MASK = (2 ^ 19 - 1) <<< 12 := by decide
  have e : (x / 4096 % 2 ^ 19) * 4096 = ((x >>> 12) % 2 ^ 19) <<< 12 := by
    rw [Nat.shiftLeft_eq, Nat.shiftRight_eq_div_pow]
  rw [h, e]
  apply Nat.eq_of_testBit_eq
  intro i
  simp only [Nat.testBit_and, Nat.testBit_shiftLeft, Nat.testBit_two_pow_sub_one,
    Nat.testBit_mod_two_pow, Nat.testBit_shiftRight]
  by_cases h12 : 12 ≤ i
  · have : 12 + (i - 12) = i := by omega
    simp [h12, this, Bool.and_comm]
  · simp [h12]

theorem HvGetCellType_eq (x : Nat) : HvGetCellType x = x / 2 ^ 31 % 2 := by
  unfold HvGetCellType
  rw [and_type_mask]
  have hs : HCELL_TYPE_SHIFT = 31 := rfl
  have hr : ULONG_RANGE = 2 ^ 32 := rfl
  rw [hs, hr, Nat.shiftRight_eq_div_pow, Nat.mul_div_cancel _ (by decide : 0 < 2 ^ 31)]
  omega

/-- On a valid triple the bitwise construction of a handle is the sum of its
three parts. -/
theorem encodeCell_eq_add (c : HSTORAGE_TYPE) (o b : Nat)
    (ho : HV_BLOCK_SIZE ∣ o) (hle : o ≤ 0x7FFFF000) (hb : b < 4096) :
    encodeCell c o b = c.toULONG * 2 ^ 31 + o + b := by
  obtain ⟨k, rfl⟩ := ho
  have hk : HV_BLOCK_SIZE = 2 ^ 12 := by decide
  rw [hk] at hle ⊢
  have h1 : 2 ^ 12 * k ||| b = 2 ^ 12 * k + b := (Nat.mul_add_lt_is_or hb k).symm
  have hc : (c.toULONG <<< HCELL_TYPE_SHIFT) % ULONG_RANGE = 2 ^ 31 * c.toULONG := by
    cases c <;> decide
  have h2 : 2 ^ 31 * c.toULONG ||| (2 ^ 12 * k + b) = 2 ^ 31 * c.toULONG + (2 ^ 12 * k + b) :=
    (Nat.mul_add_lt_is_or (by omega) c.toULONG).symm
  unfold encodeCell
  rw [hc, Nat.or_assoc, h1, h2]
  omega

/-- C1: cell-handle round trip. For a storage class `c`, a container offset `o`
that is a multiple of 4096 with `o ≤ 0x7FFFF000` and a byte offset `b < 4096`,
the handle `(c << HCELL_TYPE_SHIFT) | o | b` is a 32-bit value from which
`HvGetCellType`, `& HCELL_BLOCK_MASK` and `& HCELL_OFFSET_MASK` give back
exactly `c`, `o` and `b`. -/
theorem cell_handle_round_trip (c : HSTORAGE_TYPE) (o b : Nat)
    (ho : HV_BLOCK_SIZE ∣ o) (hle : o ≤ 0x7FFFF000) (hb : b < 4096) :
    encodeCell c o b < ULONG_RANGE ∧
    HvGetCellType (encodeCell c o b) = c.toULONG ∧
    encodeCell c o b &&& HCELL_BLOCK_MASK = o ∧
    encodeCell c o b &&& HCELL_OFFSET_MASK = b := by
  rw [encodeCell_eq_add c o b ho hle hb, HvGetCellType_eq, and_block_mask, and_offset_mask]
  obtain ⟨k, rfl⟩ := ho
  have hk : HV_BLOCK_SIZE = 4096 := rfl
  have hr : ULONG_RANGE = 4294967296 := rfl
  rw [hk] at hle ⊢
  rw [hr]
  cases c <;> simp only [HSTORAGE_TYPE.toULONG] <;> omega

theorem cell_handle_round_trip_witness :
    encodeCell .Volatile 0x2000 0x20 = 0x80002020 ∧
    (encodeCell .Volatile 0x2000 0x20 < ULONG_RANGE ∧
     HvGetCellType (encodeCell .Volatile 0x2000 0x20) = HSTORAGE_TYPE.Volatile.toULONG ∧
     encodeCell .Volatile 0x2000 0x20 &&& HCELL_BLOCK_MASK = 0x2000 ∧
     encodeCell .Volatile 0x2000 0x20 &&& HCELL_OFFSET_MASK = 0x20) :=
  ⟨by decide, cell_handle_round_trip .Volatile 0x2000 0x20 ⟨2, by decide⟩ (by decide) (by decide)⟩

/-- C2: for every 32-bit handle `h`, `HvGetCellType h` is bit 31 of `h`: it is
`Stable = 0` when `h < 0x80000000` and `Volatile = 1` otherwise, hence always
below `HTYPE_COUNT = 2`. -/
theorem HvGetCellType_is_bit31 (h : Nat) (hh : h < ULONG_RANGE) :
    HvGetCellType h = (h.testBit 31).toNat ∧
    (h < 0x80000000 → HvGetCellType h = HSTORAGE_TYPE.Stable.toULONG) ∧
    (0x80000000 ≤ h → HvGetCellType h = HSTORAGE_TYPE.Volatile.toULONG) ∧
    HvGetCellType h < HTYPE_COUNT := by
  have hr : ULONG_RANGE = 4294967296 := rfl
  have ht : HTYPE_COUNT = 2 := rfl
  rw [hr] at hh
  rw [HvGetCellType_eq, ht]
  refine ⟨?_, ?_, ?_, ?_⟩
  · rw [Nat.testBit_to_div_mod]
    have hlt : h / 2 ^ 31 % 2 < 2 := Nat.mod_lt _ (by decide)
    generalize h / 2 ^ 31 % 2 = y at hlt
    by_cases hy : y = 1
    · simp [hy]
    · have : y = 0 := by omega
      simp [this]
  · intro hlo
    simp only [HSTORAGE_TYPE.toULONG]
    omega
  · intro hhi
    simp only [HSTORAGE_TYPE.toULONG]
    omega
  · omega

theorem HvGetCellType_is_bit31_witness :
    HvGetCellType 0x80001020 = 1 ∧
    (HvGetCellType 0x80001020 = (Nat.testBit 0x80001020 31).toNat ∧
     (0x80001020 < 0x80000000 → HvGetCellType 0x80001020 = HSTORAGE_TYPE.Stable.toULONG) ∧
     (0x80000000 ≤ 0x80001020 → HvGetCellType 0x80001020 = HSTORAGE_TYPE.Volatile.toULONG) ∧
     HvGetCellType 0x80001020 < HTYPE_COUNT) :=
  ⟨by decide, HvGetCellType_is_bit31 0x80001020 (by decide)⟩

/-- C3, as stated, fails: the triple (Volatile, container offset 0x7FFFF000,
byte offset 0xFFF) is valid (class 1, offset a multiple of 4096 inside bits
12-30, byte offset below 4096) and it encodes to `HCELL_NIL` stored in a
`ULONG`, that is 0xFFFFFFFF. -/
theorem hcell_nil_is_encoded :
    toULONG HCELL_NIL = 0xFFFFFFFF ∧
    HV_BLOCK_SIZE ∣ 0x7FFFF000 ∧
    0x7FFFF000 &&& HCELL_BLOCK_MASK = 0x7FFFF000 ∧
    0xFFF < 4096 ∧
    encodeCell .Volatile 0x7FFFF000 0xFFF = toULONG HCELL_NIL := by
  refine ⟨by decide, ⟨0x7FFFF, by decide⟩, by decide, by decide, by decide⟩

/-- C3, amended: among the valid triples (class, container offset a multiple of
4096 with `o ≤ 0x7FFFF000`, byte offset below 4096), the triple
(Volatile, 0x7FFFF000, 0xFFF) is the only one that encodes to `HCELL_NIL`
(0xFFFFFFFF); every other valid triple encodes to a different handle. -/
theorem hcell_nil_only_last_triple (c : HSTORAGE_TYPE) (o b : Nat)
    (ho : HV_BLOCK_SIZE ∣ o) (hle : o ≤ 0x7FFFF000) (hb : b < 4096) :
    encodeCell c o b = toULONG HCELL_NIL ↔
      (c = .Volatile ∧ o = 0x7FFFF000 ∧ b = 0xFFF) := by
  have hn : toULONG HCELL_NIL = 4294967295 := by decide
  rw [encodeCell_eq_add c o b ho hle hb, hn]
  obtain ⟨k, rfl⟩ := ho
  have hk : HV_BLOCK_SIZE = 4096 := rfl
  rw [hk] at hle ⊢
  cases c
  · simp only [HSTORAGE_TYPE.toULONG, reduceCtorEq, false_and, iff_false]
    omega
  · simp only [HSTORAGE_TYPE.toULONG, true_and]
    constructor
    · intro h
      omega
    · rintro ⟨h1, h2⟩
      omega

theorem hcell_nil_only_last_triple_witness :
    encodeCell .Volatile 0x7FFFF000 0xFFE ≠ toULONG HCELL_NIL := by
  intro h
  have := (hcell_nil_only_last_triple .Volatile 0x7FFFF000 0xFFE ⟨0x7FFFF, by decide⟩
    (by decide) (by decide)).mp h
  exact absurd this.2.2 (by decide)

/-- C4: the three handle masks are the documented bit ranges and partition the
handle. `HCELL_TYPE_MASK` is bit 31, `HCELL_BLOCK_MASK` is bits 12-30,
`HCELL_OFFSET_MASK` is bits 0-11; they are pairwise disjoint with union
0xFFFFFFFF; for every 32-bit `h` the three masked parts of `h` or together to
`h`, `h & HCELL_BLOCK_MASK` is a multiple of `HV_BLOCK_SIZE` and
`h & HCELL_OFFSET_MASK` is below 4096. -/
theorem handle_masks_partition (h : Nat) (hh : h < ULONG_RANGE) :
    (∀ i, HCELL_TYPE_MASK.testBit i = decide (i = 31)) ∧
    (∀ i, HCELL_BLOCK_MASK.testBit i = decide (12 ≤ i ∧ i ≤ 30)) ∧
    (∀ i, HCELL_OFFSET_MASK.testBit i = decide (i ≤ 11)) ∧
    HCELL_TYPE_MASK &&& HCELL_BLOCK_MASK = 0 ∧
    HCELL_TYPE_MASK &&& HCELL_OFFSET_MASK = 0 ∧
    HCELL_BLOCK_MASK &&& HCELL_OFFSET_MASK = 0 ∧
    HCELL_TYPE_MASK ||| HCELL_BLOCK_MASK ||| HCELL_OFFSET_MASK = 0xFFFFFFFF ∧
    (h &&& HCELL_TYPE_MASK) ||| (h &&& HCELL_BLOCK_MASK) ||| (h &&& HCELL_OFFSET_MASK) = h ∧
    HV_BLOCK_SIZE ∣ h &&& HCELL_BLOCK_MASK ∧
    h &&& HCELL_OFFSET_MASK < 4096 := by
  have hr : ULONG_RANGE = 2 ^ 32 := rfl
  rw [hr] at hh
  refine ⟨?_, ?_, ?_, by decide, by decide, by decide, by decide, ?_, ?_, ?_⟩
  · intro i
    have e : HCELL_TYPE_MASK = 2 ^ 31 := by decide
    rw [e, Nat.testBit_two_pow]
    by_cases h1 : i = 31
    · simp [h1]
    · have h2 : ¬ 31 = i := fun h => h1 h.symm
      simp [h1, h2]
  · intro i
    have e : HCELL_BLOCK_MASK = (2 ^ 19 - 1) <<< 12 := by decide
    rw [e, Nat.testBit_shiftLeft, Nat.testBit_two_pow_sub_one]
    by_cases h1 : 12 ≤ i <;> by_cases h2 : i ≤ 30 <;> simp [h1, h2] <;> omega
  · intro i
    have e : HCELL_OFFSET_MASK = 2 ^ 12 - 1 := by decide
    rw [e, Nat.testBit_two_pow_sub_one]
    by_cases h1 : i ≤ 11 <;> simp [h1] <;> omega
  · rw [← Nat.and_or_distrib_left, ← Nat.and_or_distrib_left]
    have e : HCELL_TYPE_MASK ||| HCELL_BLOCK_MASK ||| HCELL_OFFSET_MASK = 2 ^ 32 - 1 := by
      decide
    rw [e]
    exact Nat.and_pow_two_sub_one_of_lt_two_pow hh
  · rw [and_block_mask]
    exact ⟨h / 4096 % 2 ^ 19, by rw [Nat.mul_comm]; rfl⟩
  · rw [and_offset_mask]
    omega

theorem handle_masks_partition_witness :
    (0x80345678 &&& HCELL_TYPE_MASK = 0x80000000 ∧
     0x80345678 &&& HCELL_BLOCK_MASK = 0x345000 ∧
     0x80345678 &&& HCELL_OFFSET_MASK = 0x678) ∧
    (0x80345678 &&& HCELL_TYPE_MASK) ||| (0x80345678 &&& HCELL_BLOCK_MASK) |||
      (0x80345678 &&& HCELL_OFFSET_MASK) = 0x80345678 :=
  ⟨by decide, (handle_masks_partition 0x80345678 (by decide)).2.2.2.2.2.2.2.1⟩

/-- C5: allocation state is the sign of `Size`. For every cell, `IsUsedCell`
holds exactly when `Size < 0`, `IsFreeCell` holds exactly when `Size ≥ 0`, and
exactly one of the two holds. -/
theorem cell_state_by_sign (Cell : HCELL) :
    (IsUsedCell Cell = true ↔ Cell.Size < 0) ∧
    (IsFreeCell Cell = true ↔ Cell.Size ≥ 0) ∧
    (IsUsedCell Cell = !IsFreeCell Cell) := by
  refine ⟨by simp [IsUsedCell], by simp [IsFreeCell], ?_⟩
  unfold IsUsedCell IsFreeCell
  by_cases hs : Cell.Size < 0
  · have : ¬ Cell.Size ≥ 0 := by omega
    simp [hs, this]
  · have : Cell.Size ≥ 0 := by omega
    simp [hs, this]

/-- C6: in the packed `HBASE_BLOCK` layout `CheckSum` is the last 32-bit word of
the first 0x200 bytes. Its offset is 0x1FC, the members before it (`Signature`
to `Reserved1`) take 0x1FC bytes = 127 words, `HV_LOG_HEADER_SIZE` is
0x200 = `HSECTOR_SIZE`, and the bytes of the first 0x200 that are not in the
checksum field are exactly those at offsets 0 to 0x1FB. -/
theorem checksum_is_last_word_of_first_sector :
    FIELD_OFFSET HBASE_BLOCK .CheckSum = 0x1FC ∧
    ((HBASE_BLOCK.take 13).map (fun g => sizeof g.type)).sum = 0x1FC ∧
    HBASE_BLOCK.take 13 ++ [.CheckSum] = HBASE_BLOCK.take 14 ∧
    0x1FC = 127 * sizeof .ULONG ∧
    FIELD_OFFSET HBASE_BLOCK .CheckSum + sizeof HBASE_BLOCK_FIELD.CheckSum.type = 0x200 ∧
    HV_LOG_HEADER_SIZE = 0x200 ∧
    HV_LOG_HEADER_SIZE = HSECTOR_SIZE ∧
    (∀ i : Nat,
      (i < 0x200 ∧ ¬ (FIELD_OFFSET HBASE_BLOCK .CheckSum ≤ i ∧
          i < FIELD_OFFSET HBASE_BLOCK .CheckSum + sizeof HBASE_BLOCK_FIELD.CheckSum.type))
        ↔ i ≤ 0x1FB) := by
  have hoff : FIELD_OFFSET HBASE_BLOCK .CheckSum = 0x1FC := by decide
  have hsz : sizeof HBASE_BLOCK_FIELD.CheckSum.type = 4 := by decide
  refine ⟨hoff, by decide, by decide, by decide, by decide, by decide, by decide, ?_⟩
  intro i
  rw [hoff, hsz]
  omega

/-- C7: the magic numbers are the documented constants and spell their tags in
little-endian storage: `HV_SIGNATURE = 0x66676572` is stored as the bytes
`r e g f`, `HV_BIN_SIGNATURE = 0x6E696268` as `h b i n`, and the two differ. -/
theorem signatures_spell_tags :
    HV_SIGNATURE = 0x66676572 ∧
    littleEndianBytes HV_SIGNATURE = ['r', 'e', 'g', 'f'].map Char.toNat ∧
    HV_BIN_SIGNATURE = 0x6E696268 ∧
    littleEndianBytes HV_BIN_SIGNATURE = ['h', 'b', 'i', 'n'].map Char.toNat ∧
    HV_SIGNATURE ≠ HV_BIN_SIGNATURE := by
  refine ⟨by decide, by decide, by decide, by decide, by decide⟩

end HiveData

/-! Properties of the test-list routines -/

namespace Kmtest

theorem skipLeadingDash_eq_lookupName (s : List Char) : skipLeadingDash s = lookupName s := by
  cases s with
  | nil => rfl
  | cons c rest =>
    by_cases hc : c = '-'
    · simp [skipLeadingDash, lookupName, hc]
    · simp [skipLeadingDash, lookupName, hc]

theorem toNat_eq_imp_eq (a b : Char) (h : a.toNat = b.toNat) : a = b := by
  rw [← Char.ofNat_toNat a, ← Char.ofNat_toNat b, h]

theorem strcmp_eq_zero_iff :
    ∀ a b : List Char, IsCString a → IsCString b → (strcmp a b = 0 ↔ a = b)
  | [], [], _, _ => by simp [strcmp]
  | [], b :: t, _, hb => by
    simp only [strcmp, reduceCtorEq, iff_false]
    intro h0
    have hb0 : b.toNat = NUL.toNat := by
      have : NUL.toNat = 0 := by decide
      omega
    exact hb (by rw [← toNat_eq_imp_eq b NUL hb0]; exact List.mem_cons_self _ _)
  | a :: s, [], ha, _ => by
    simp only [strcmp, reduceCtorEq, iff_false]
    intro h0
    have ha0 : a.toNat = NUL.toNat := by
      have : NUL.toNat = 0 := by decide
      omega
    exact ha (by rw [← toNat_eq_imp_eq a NUL ha0]; exact List.mem_cons_self _ _)
  | a :: s, b :: t, ha, hb => by
    have hs : IsCString s := fun h => ha (List.mem_cons_of_mem _ h)
    have ht : IsCString t := fun h => hb (List.mem_cons_of_mem _ h)
    by_cases hab : a = b
    · subst hab
      simp [strcmp, strcmp_eq_zero_iff s t hs ht]
    · simp only [strcmp, if_neg hab, List.cons.injEq, hab, false_and, iff_false]
      intro h0
      rw [if_neg (fun h => h)] at h0
      exact hab (toNat_eq_imp_eq a b (by omega))

theorem IsCString_skipLeadingDash (s : List Char) (h : IsCString s) :
    IsCString (skipLeadingDash s) := by
  cases s with
  | nil => exact h
  | cons c rest =>
    by_cases hc : c = '-'
    · simp only [skipLeadingDash, if_pos hc]
      exact fun hm => h (List.mem_cons_of_mem _ hm)
    · simp only [skipLeadingDash, if_neg hc]
      exact h

/-- C8: `FindTest` lookup. For a table of named entries ended by the entry with
a `NULL` name and a `NULL` function, and a comparison `lstrcmpA` that returns 0
exactly on equal strings, `FindTest n` returns the test function of the first
entry whose name, with one leading `-` dropped if present, equals `n`, and
`NULL` when no entry matches. In particular an entry named `-X` is found by the
name `X`. -/
theorem FindTest_first_match (lstrcmpA : List Char → List Char → Int)
    (hcmp : ∀ a b, IsCString a → IsCString b → (lstrcmpA a b = 0 ↔ a = b))
    (entries : List KMT_TEST)
    (hnamed : ∀ e ∈ entries, ∃ name, e.TestName = some name ∧ IsCString name)
    (n : List Char) (hn : IsCString n) :
    FindTest lstrcmpA (entries ++ [⟨none, none⟩]) n = some (firstMatch entries n) ∧
    (∀ (f : Option Nat) (rest : List KMT_TEST),
      FindTest lstrcmpA (⟨some ('-' :: n), f⟩ :: rest) n = some f) := by
  constructor
  · induction entries with
    | nil => simp [FindTest, firstMatch]
    | cons e rest ih =>
      have hrest : ∀ e ∈ rest, ∃ name, e.TestName = some name ∧ IsCString name :=
        fun x hx => hnamed x (List.mem_cons_of_mem _ hx)
      obtain ⟨name, hname, hcs⟩ := hnamed e (List.mem_cons_self _ _)
      have hiff := hcmp (skipLeadingDash name) n (IsCString_skipLeadingDash name hcs) hn
      rw [skipLeadingDash_eq_lookupName] at hiff
      rw [List.cons_append, FindTest]
      simp only [hname]
      by_cases hm : lookupName name = n
      · have h0 : lstrcmpA (skipLeadingDash name) n = 0 := by
          rw [skipLeadingDash_eq_lookupName]; exact hiff.mpr hm
        simp [h0, firstMatch, List.find?, hname, hm]
      · have h0 : ¬ lstrcmpA (skipLeadingDash name) n = 0 := by
          rw [skipLeadingDash_eq_lookupName]; exact fun h => hm (hiff.mp h)
        rw [if_neg h0, ih hrest]
        simp [firstMatch, List.find?, hname, hm]
  · intro f rest
    have h0 : lstrcmpA (skipLeadingDash ('-' :: n)) n = 0 := by
      have e : skipLeadingDash ('-' :: n) = n := by simp [skipLeadingDash]
      rw [e]; exact (hcmp n n hn hn).mpr rfl
    simp [FindTest, h0]

theorem FindTest_first_match_witness :
    FindTest strcmp
        ([⟨some "Example".toList, some 1⟩, ⟨some "-Hidden".toList, some 2⟩] ++ [⟨none, none⟩])
        "Hidden".toList = some (some 2) := by
  have h := (FindTest_first_match strcmp strcmp_eq_zero_iff
    [⟨some "Example".toList, some 1⟩, ⟨some "-Hidden".toList, some 2⟩]
    (by decide) "Hidden".toList (by decide)).1
  rw [h]
  decide

theorem skipHidden_spec : ∀ (l : List KMT_TEST) (k : Nat), skipHidden l = some k →
    ∃ e, l[k]? = some e ∧ isHidden e = false
  | [], k, h => by simp [skipHidden] at h
  | e :: rest, k, h => by
    by_cases hh : isHidden e = true
    · simp only [skipHidden, hh, if_true, Option.map_eq_some'] at h
      obtain ⟨j, hj, rfl⟩ := h
      obtain ⟨e', he', hv⟩ := skipHidden_spec rest j hj
      exact ⟨e', by simpa using he', hv⟩
    · simp only [skipHidden, hh, Bool.false_eq_true, if_false, Option.some.injEq] at h
      subst h
      exact ⟨e, by simp, by simpa using hh⟩

theorem printed_print (line : NextTestName) (o : Outcome) :
    (o.print line).printed = line :: o.printed := rfl

theorem status_print (line : NextTestName) (o : Outcome) :
    (o.print line).status = o.status := rfl

/-- A line printed from the table comes from an entry that the inner loop did
not skip. -/
theorem ListTestsLoop_entry_visible (TestList : List KMT_TEST) (Buffer : List Char) :
    ∀ (fuel TestEntry TestName i : Nat) (name : List Char),
      NextTestName.ofEntry i name ∈ (ListTestsLoop TestList Buffer fuel TestEntry TestName).printed →
      ∃ e, TestList[i]? = some e ∧ e.TestName = some name ∧ isHidden e = false
  | 0, _, _, _, _, h => by simp [ListTestsLoop] at h
  | fuel + 1, TestEntry, TestName, i, name, h => by
    have ih := ListTestsLoop_entry_visible TestList Buffer fuel
    unfold ListTestsLoop at h
    split at h
    · simp at h
    · dsimp only at h
      split at h
      · simp at h
      · simp at h
      · split at h
        · simp at h
        · rename_i k hk
          obtain ⟨e', he', hv⟩ := skipHidden_spec _ k hk
          rw [List.getElem?_drop] at he'
          split at h
          · simp at h
          · rename_i e he
            have hv : isHidden e = false := by
              rw [he] at he'
              cases he'
              exact hv
            split at h
            · split at h
              · simp at h
              · rw [printed_print] at h
                simp only [List.mem_cons, reduceCtorEq, false_or] at h
                exact ih _ _ _ _ h
            · rename_i nm hnm
              split at h
              · simp at h
              · split at h
                · rw [printed_print] at h
                  rcases List.mem_cons.mp h with h1 | h1
                  · cases h1
                    exact ⟨e, he, hnm, hv⟩
                  · exact ih _ _ _ _ h1
                · split at h
                  · simp at h
                  · split at h
                    · split at h
                      · simp at h
                      · rw [printed_print] at h
                        rcases List.mem_cons.mp h with h1 | h1
                        · cases h1
                          exact ⟨e, he, hnm, hv⟩
                        · exact ih _ _ _ _ h1
                    · split at h
                      · rw [printed_print] at h
                        rcases List.mem_cons.mp h with h1 | h1
                        · cases h1
                          exact ⟨e, he, hnm, hv⟩
                        · exact ih _ _ _ _ h1
                      · split at h
                        · simp at h
                        · rw [printed_print] at h
                          simp only [List.mem_cons, reduceCtorEq, false_or] at h
                          exact ih _ _ _ _ h

theorem cstring_length : ∀ (l s : List Char), cstring l = some s → s.length + 1 ≤ l.length
  | [], s, h => by simp [cstring] at h
  | c :: rest, s, h => by
    by_cases hc : c = NUL
    · simp only [cstring, if_pos hc, Option.some.injEq] at h
      subst h
      simp
    · simp only [cstring, if_neg hc, Option.map_eq_some'] at h
      obtain ⟨t, ht, rfl⟩ := h
      have := cstring_length rest t ht
      simp only [List.length_cons]
      omega

/-- Every iteration moves `TestEntry` or `TestName` forward inside its array, so
a bound above the remaining lengths is never reached. -/
theorem ListTestsLoop_finishes (TestList : List KMT_TEST) (Buffer : List Char) :
    ∀ (fuel TestEntry TestName : Nat),
      (TestList.length - TestEntry) + (Buffer.length - TestName) < fuel →
      (ListTestsLoop TestList Buffer fuel TestEntry TestName).status ≠ .unfinished
  | 0, _, _, h => by omega
  | fuel + 1, TestEntry, TestName, h => by
    have ih := ListTestsLoop_finishes TestList Buffer fuel
    unfold ListTestsLoop
    split
    · simp
    · dsimp only
      split
      · simp
      · simp
      · split
        · simp
        · rename_i k hk
          split
          · simp
          · rename_i e he
            have hlt : TestEntry + k < TestList.length := (List.getElem?_eq_some_iff.mp he).1
            have hstr : ∀ s, cstring (List.drop TestName Buffer) = some s →
                TestName + s.length + 1 ≤ Buffer.length ∧ TestName < Buffer.length := by
              intro s hs
              have := cstring_length _ s hs
              rw [List.length_drop] at this
              omega
            split
            · split
              · simp
              · rename_i s hs
                rw [status_print]
                have := hstr s hs
                exact ih _ _ (by omega)
            · split
              · simp
              · split
                · rw [status_print]
                  exact ih _ _ (by omega)
                · split
                  · simp
                  · split
                    · split
                      · simp
                      · rename_i s hs
                        have := hstr s hs
                        rw [status_print]
                        exact ih _ _ (by omega)
                    · split
                      · rw [status_print]
                        exact ih _ _ (by omega)
                      · split
                        · simp
                        · rename_i s hs
                          have := hstr s hs
                          rw [status_print]
                          exact ih _ _ (by omega)

/-- The function `ListTests` always ends, by returning or by a fault. -/
theorem ListTests_finishes (TestList : List KMT_TEST) (DeviceIoControl : Except Nat (List Char)) :
    (ListTests TestList DeviceIoControl).status ≠ .unfinished := by
  cases DeviceIoControl with
  | error e => simp [ListTests]
  | ok Buffer =>
    simp only [ListTests]
    exact ListTestsLoop_finishes TestList Buffer _ 0 0 (by omega)

/-- C9 fails on the code. The table holds the single hidden entry `-X` before
its `NULL` entry (so it is sorted) and the driver reports no test (its buffer is
the empty string alone). The merge of the listed names is empty, yet
`ListTests` prints one line, the empty string at offset 0 of the buffer, and
then reads the byte after the terminating empty string. -/
theorem ListTests_trailing_hidden_overruns :
    testTable [("-X".toList, some 1)] = [⟨some ['-', 'X'], some 1⟩, ⟨none, none⟩] ∧
    driverBuffer [] = [NUL] ∧
    ListTests (testTable [("-X".toList, some 1)]) (.ok (driverBuffer [])) =
      ⟨[.ofBuffer 0 []], .fault⟩ := by
  refine ⟨by decide, by decide, by decide⟩

/-- C10: hidden tests are not listed. For every table and every result of the
driver call, a name that `ListTests` prints from the table is the name of an
entry that exists in the table and whose name does not start with `-`. -/
theorem ListTests_never_lists_hidden (TestList : List KMT_TEST)
    (DeviceIoControl : Except Nat (List Char)) (i : Nat) (name : List Char)
    (h : NextTestName.ofEntry i name ∈ (ListTests TestList DeviceIoControl).printed) :
    ∃ e, TestList[i]? = some e ∧ e.TestName = some name ∧ name.head? ≠ some '-' := by
  cases DeviceIoControl with
  | error e => simp [ListTests] at h
  | ok Buffer =>
    simp only [ListTests] at h
    obtain ⟨e, he, hname, hv⟩ := ListTestsLoop_entry_visible TestList Buffer _ 0 0 i name h
    refine ⟨e, he, hname, ?_⟩
    simpa [isHidden, hname] using hv

/-- A run on a buffer without a terminating NUL: the table holds `A`, the
buffer the single byte `B`. `strcmp` stops at the first byte with a negative
result, so the entry `A` is printed; the overrun happens in the `strlen` of the
next iteration. -/
theorem ListTests_prints_entry_before_overrun :
    ListTests (testTable [("A".toList, some 1)]) (.ok ['B']) =
      ⟨[.ofEntry 0 ['A']], .fault⟩ := by
  decide

theorem ListTests_never_lists_hidden_witness :
    (ListTests (testTable [("-Hidden".toList, some 1), ("Example".toList, some 2)])
        (.ok (driverBuffer ["-Hidden".toList, "IoDevice".toList]))).printed =
      [.ofBuffer 0 "-Hidden".toList, .ofEntry 1 "Example".toList,
       .ofBuffer 8 "IoDevice".toList] ∧
    ∃ e, (testTable [("-Hidden".toList, some 1), ("Example".toList, some 2)])[1]? = some e ∧
      e.TestName = some "Example".toList ∧ "Example".toList.head? ≠ some '-' :=
  ⟨by decide,
   ListTests_never_lists_hidden
     (testTable [("-Hidden".toList, some 1), ("Example".toList, some 2)])
     (.ok (driverBuffer ["-Hidden".toList, "IoDevice".toList])) 1 "Example".toList
     (by decide)⟩

theorem strcmp_pos_imp_neg : ∀ a b : List Char, 0 < strcmp a b → strcmp b a < 0
  | [], [], h => by simp [strcmp] at h
  | [], b :: t, h => by
    simp only [strcmp] at h
    omega
  | a :: s, [], h => by
    simp only [strcmp] at h ⊢
    omega
  | a :: s, b :: t, h => by
    by_cases hab : a = b
    · subst hab
      simp only [strcmp, if_true] at h ⊢
      exact strcmp_pos_imp_neg s t h
    · have hba : ¬ b = a := fun e => hab e.symm
      simp only [strcmp, if_neg hab, if_neg hba] at h ⊢
      omega

theorem toNat_pos_of_ne_NUL (c : Char) (h : c ≠ NUL) : 0 < c.toNat := by
  by_contra h0
  have hz : c.toNat = NUL.toNat := by
    have : NUL.toNat = 0 := by decide
    omega
  exact h (toNat_eq_imp_eq c NUL hz)

theorem strcmp_neg_trans : ∀ a b c : List Char, IsCString c →
    strcmp a b < 0 → strcmp b c < 0 → strcmp a c < 0
  | [], [], _, _, h1, _ => by simp [strcmp] at h1
  | [], _ :: _, [], _, _, h2 => by
    simp only [strcmp] at h2
    omega
  | [], _ :: _, z :: u, hc, _, _ => by
    have := toNat_pos_of_ne_NUL z (fun e => hc (by rw [← e]; exact List.mem_cons_self _ _))
    simp only [strcmp]
    omega
  | x :: s, [], _, _, h1, _ => by
    simp only [strcmp] at h1
    omega
  | _ :: _, _ :: _, [], _, _, h2 => by
    simp only [strcmp] at h2
    omega
  | x :: s, y :: t, z :: u, hc, h1, h2 => by
    have hu : IsCString u := fun h => hc (List.mem_cons_of_mem _ h)
    by_cases hxy : x = y
    · subst hxy
      by_cases hxz : x = z
      · subst hxz
        simp only [strcmp, if_true] at h1 h2 ⊢
        exact strcmp_neg_trans s t u hu h1 h2
      · simp only [strcmp, if_neg hxz] at h2 ⊢
        exact h2
    · by_cases hyz : y = z
      · subst hyz
        simp only [strcmp, if_neg hxy] at h1 ⊢
        exact h1
      · simp only [strcmp, if_neg hxy, if_neg hyz] at h1 h2
        have hxz : ¬ x = z := by
          intro e
          rw [e] at h1
          omega
        simp only [strcmp, if_neg hxz]
        omega

theorem mergeNames_nil_right (vs : List (List Char)) : mergeNames vs [] = vs := by
  cases vs <;> simp [mergeNames]

theorem mem_mergeNames (n : List Char) : ∀ (vs ds : List (List Char)),
    (∀ v ∈ vs, IsCString v) → (∀ d ∈ ds, IsCString d) →
    (n ∈ mergeNames vs ds ↔ n ∈ vs ∨ n ∈ ds)
  | [], ds, _, _ => by simp [mergeNames]
  | v :: vs, [], _, _ => by simp [mergeNames]
  | v :: vs, d :: ds, hv, hd => by
    have hvs : ∀ x ∈ vs, IsCString x := fun x hx => hv x (List.mem_cons_of_mem _ hx)
    have hds : ∀ x ∈ ds, IsCString x := fun x hx => hd x (List.mem_cons_of_mem _ hx)
    rw [mergeNames]
    by_cases h0 : strcmp v d = 0
    · have e : v = d :=
        (strcmp_eq_zero_iff v d (hv v (List.mem_cons_self _ _))
          (hd d (List.mem_cons_self _ _))).mp h0
      subst e
      simp only [if_pos h0, List.mem_cons, mem_mergeNames n vs ds hvs hds]
      tauto
    · rw [if_neg h0]
      by_cases h1 : strcmp v d < 0
      · simp only [if_pos h1, List.mem_cons, mem_mergeNames n vs (d :: ds) hvs hd]
        tauto
      · simp only [if_neg h1, List.mem_cons, mem_mergeNames n (v :: vs) ds hv hds]
        tauto
termination_by vs ds => vs.length + ds.length

theorem pairwise_mergeNames : ∀ (vs ds : List (List Char)),
    (∀ v ∈ vs, IsCString v) → (∀ d ∈ ds, IsCString d) →
    vs.Pairwise (fun a b => strcmp a b < 0) → ds.Pairwise (fun a b => strcmp a b < 0) →
    (mergeNames vs ds).Pairwise (fun a b => strcmp a b < 0)
  | [], ds, _, _, _, hd => by simpa [mergeNames] using hd
  | v :: vs, [], _, _, hv, _ => by simpa [mergeNames] using hv
  | v :: vs, d :: ds, cv, cd, hv, hd => by
    have cvs : ∀ x ∈ vs, IsCString x := fun x hx => cv x (List.mem_cons_of_mem _ hx)
    have cds : ∀ x ∈ ds, IsCString x := fun x hx => cd x (List.mem_cons_of_mem _ hx)
    obtain ⟨hv1, hv2⟩ := List.pairwise_cons.mp hv
    obtain ⟨hd1, hd2⟩ := List.pairwise_cons.mp hd
    rw [mergeNames]
    by_cases h0 : strcmp v d = 0
    · have e : v = d :=
        (strcmp_eq_zero_iff v d (cv v (List.mem_cons_self _ _))
          (cd d (List.mem_cons_self _ _))).mp h0
      subst e
      rw [if_pos h0]
      refine List.pairwise_cons.mpr ⟨?_, pairwise_mergeNames vs ds cvs cds hv2 hd2⟩
      intro x hx
      rcases (mem_mergeNames x vs ds cvs cds).mp hx with h | h
      · exact hv1 x h
      · exact hd1 x h
    · rw [if_neg h0]
      by_cases h1 : strcmp v d < 0
      · rw [if_pos h1]
        refine List.pairwise_cons.mpr ⟨?_, pairwise_mergeNames vs (d :: ds) cvs cd hv2 hd⟩
        intro x hx
        rcases (mem_mergeNames x vs (d :: ds) cvs cd).mp hx with h | h
        · exact hv1 x h
        · rcases List.mem_cons.mp h with h | h
          · rw [h]; exact h1
          · exact strcmp_neg_trans v d x (cds x h) h1 (hd1 x h)
      · rw [if_neg h1]
        have h2 : strcmp d v < 0 := strcmp_pos_imp_neg v d (by omega)
        refine List.pairwise_cons.mpr ⟨?_, pairwise_mergeNames (v :: vs) ds cv cds hv hd2⟩
        intro x hx
        rcases (mem_mergeNames x (v :: vs) ds cv cds).mp hx with h | h
        · rcases List.mem_cons.mp h with h | h
          · rw [h]; exact h2
          · exact strcmp_neg_trans d v x (cvs x h) h2 (hv1 x h)
        · exact hd1 x h
termination_by vs ds => vs.length + ds.length

theorem driverBuffer_cons (d : List Char) (ds : List (List Char)) :
    driverBuffer (d :: ds) = d ++ NUL :: driverBuffer ds := by
  simp [driverBuffer]

theorem testTable_cons (r : List Char × Option Nat) (rs : List (List Char × Option Nat)) :
    testTable (r :: rs) = ⟨some r.1, r.2⟩ :: testTable rs := by
  simp [testTable]

theorem testTable_drop (rest : List (List Char × Option Nat)) (k : Nat)
    (hk : k ≤ rest.length) : (testTable rest).drop k = testTable (rest.drop k) := by
  unfold testTable
  rw [List.drop_append_of_le_length (by simpa using hk), List.map_drop]

theorem cstring_append : ∀ (d more : List Char), IsCString d →
    cstring (d ++ NUL :: more) = some d
  | [], more, _ => by simp [cstring]
  | c :: d, more, h => by
    have hc : c ≠ NUL := fun e => h (by rw [e]; exact List.mem_cons_self _ _)
    have hd : IsCString d := fun hm => h (List.mem_cons_of_mem _ hm)
    simp [cstring, hc, cstring_append d more hd]

theorem strcmpAt_append : ∀ (name d more : List Char), IsCString d →
    strcmpAt name (d ++ NUL :: more) = some (strcmp name d)
  | [], [], more, _ => by
    have h0 : (NUL.toNat : Int) = 0 := by decide
    simp [strcmpAt, strcmp, h0]
  | [], b :: t, more, _ => by simp [strcmpAt, strcmp]
  | a :: s, [], more, _ => by
    have h0 : (NUL.toNat : Int) = 0 := by decide
    by_cases ha : a = NUL
    · subst ha
      simp [strcmpAt, strcmp, h0]
    · simp [strcmpAt, strcmp, ha, h0]
  | a :: s, b :: t, more, h => by
    have hb : b ≠ NUL := fun e => h (by rw [e]; exact List.mem_cons_self _ _)
    have ht : IsCString t := fun hm => h (List.mem_cons_of_mem _ hm)
    by_cases hab : a = b
    · subst hab
      simp [strcmpAt, strcmp, hb, strcmpAt_append s t more ht]
    · simp [strcmpAt, strcmp, hab]

theorem LastListed_drop (rest : List (List Char × Option Nat)) (j : Nat)
    (h : LastListed rest) : LastListed (rest.drop j) := by
  intro front e he
  refine h (rest.take j ++ front) e ?_
  rw [List.append_assoc, ← he, List.take_append_drop]

theorem skipHidden_testTable : ∀ (rest : List (List Char × Option Nat)),
    rest ≠ [] → LastListed rest →
    ∃ k v, skipHidden (testTable rest) = some k ∧ rest.drop k = v :: rest.drop (k + 1) ∧
      v.1.head? ≠ some '-' ∧ visibleNames rest = v.1 :: visibleNames (rest.drop (k + 1))
  | [], h, _ => absurd rfl h
  | r :: rs, _, hl => by
    by_cases hr : r.1.head? = some '-'
    · have hrs : rs ≠ [] := by
        intro e
        subst e
        exact hl [] r rfl hr
      have hl1 : LastListed rs := LastListed_drop (r :: rs) 1 hl
      obtain ⟨k, v, hk, hd, hv, hvis⟩ := skipHidden_testTable rs hrs hl1
      refine ⟨k + 1, v, ?_, by simpa using hd, hv, ?_⟩
      · rw [testTable_cons, skipHidden, hk]
        simp [isHidden, hr]
      · simpa [visibleNames, hr] using hvis
    · refine ⟨0, r, ?_, by simp, hr, ?_⟩
      · rw [testTable_cons, skipHidden]
        simp [isHidden, hr]
      · simp [visibleNames, hr]

theorem drop_name : ∀ (d more : List Char),
    (d ++ NUL :: more).drop (d.length + 1) = more
  | [], more => by simp
  | c :: d, more => by simp [drop_name d more]

theorem drop_driverBuffer (B : List Char) (tn : Nat) (d : List Char) (ds : List (List Char))
    (hB : B.drop tn = driverBuffer (d :: ds)) :
    B.drop (tn + d.length + 1) = driverBuffer ds := by
  rw [Nat.add_assoc, ← List.drop_drop, hB, driverBuffer_cons, drop_name]

theorem drop_testTable (TL : List KMT_TEST) (te k : Nat) (rest : List (List Char × Option Nat))
    (hT : TL.drop te = testTable rest) (hk : k ≤ rest.length) :
    TL.drop (te + k) = testTable (rest.drop k) := by
  rw [← List.drop_drop, hT, testTable_drop rest k hk]

/-- When the last named entry of the table is listed, the loop returns and
prints the merge of the listed table names with the driver's names. -/
theorem ListTestsLoop_merges (TL : List KMT_TEST) (B : List Char) :
    ∀ (fuel te tn : Nat) (rest : List (List Char × Option Nat)) (names : List (List Char)),
      TL.drop te = testTable rest → B.drop tn = driverBuffer names →
      LastListed rest → (∀ d ∈ names, d ≠ [] ∧ IsCString d) →
      rest.length + names.length < fuel →
      (ListTestsLoop TL B fuel te tn).status = .returned ERROR_SUCCESS ∧
      (ListTestsLoop TL B fuel te tn).printed.map NextTestName.text =
        mergeNames (visibleNames rest) names
  | 0, _, _, _, _, _, _, _, _, h => by omega
  | fuel + 1, te, tn, rest, names, hT, hB, hl, hn, hf => by
    have ih := ListTestsLoop_merges TL B fuel
    have getT : ∀ j, TL[te + j]? = (testTable rest)[j]? := fun j => by
      rw [← hT, List.getElem?_drop]
    have getB : B[tn]? = (driverBuffer names)[0]? := by
      rw [← hB, List.getElem?_drop]; simp
    cases rest with
    | nil =>
      have h0 : TL[te]? = some ⟨none, none⟩ := by simpa [testTable] using getT 0
      cases names with
      | nil =>
        have hb : B[tn]? = some NUL := by simpa [driverBuffer] using getB
        rw [ListTestsLoop]
        simp [h0, hb, visibleNames, mergeNames]
      | cons d ds =>
        obtain ⟨hdne, hdc⟩ := hn d (List.mem_cons_self _ _)
        obtain ⟨c, d1, rfl⟩ := List.exists_cons_of_ne_nil hdne
        have hc : c ≠ NUL := fun e => hdc (by rw [e]; exact List.mem_cons_self _ _)
        have hb : B[tn]? = some c := by simpa [driverBuffer_cons] using getB
        have hs : cstring (B.drop tn) = some (c :: d1) := by
          rw [hB, driverBuffer_cons]; exact cstring_append _ _ hdc
        have hk : skipHidden (TL.drop te) = some 0 := by
          rw [hT]; simp [testTable, skipHidden, isHidden]
        obtain ⟨i1, i2⟩ := ih te (tn + (c :: d1).length + 1) [] ds hT
          (drop_driverBuffer B tn _ ds hB) hl
          (fun x hx => hn x (List.mem_cons_of_mem _ hx))
          (by simp only [List.length_cons, List.length_nil] at hf ⊢; omega)
        rw [ListTestsLoop]
        simp only [h0, hb, hk, hs, Option.isSome_none, Bool.false_eq_true, if_false,
          Option.map_some', ne_eq, hc, not_false_eq_true, decide_True, Nat.add_zero]
        rw [status_print, printed_print]
        refine ⟨i1, ?_⟩
        rw [List.map_cons, i2]
        simp [visibleNames, mergeNames, NextTestName.text]
    | cons r rs =>
      have h0 : TL[te]? = some ⟨some r.1, r.2⟩ := by simpa [testTable_cons] using getT 0
      obtain ⟨k, v, hk0, hdrop, hv, hvis⟩ := skipHidden_testTable (r :: rs) (by simp) hl
      have hk : skipHidden (TL.drop te) = some k := by rw [hT]; exact hk0
      have hklt : k < (r :: rs).length := by
        by_contra hge
        rw [List.drop_eq_nil_of_le (Nat.le_of_not_lt hge)] at hdrop
        cases hdrop
      have hTk : TL.drop (te + k) = testTable (v :: (r :: rs).drop (k + 1)) := by
        rw [drop_testTable TL te k _ hT (Nat.le_of_lt hklt), hdrop]
      have hek : TL[te + k]? = some ⟨some v.1, v.2⟩ := by
        have h2 : TL[te + k]? = (TL.drop (te + k))[0]? := by
          rw [List.getElem?_drop]; simp
        rw [h2, hTk, testTable_cons]; simp
      have hTk1 : TL.drop (te + k + 1) = testTable ((r :: rs).drop (k + 1)) := by
        rw [Nat.add_assoc]; exact drop_testTable TL te (k + 1) _ hT hklt
      have hl1 : LastListed ((r :: rs).drop (k + 1)) := LastListed_drop _ _ hl
      have hlk : LastListed (v :: (r :: rs).drop (k + 1)) := by
        rw [← hdrop]; exact LastListed_drop _ _ hl
      have hvisk : visibleNames (v :: (r :: rs).drop (k + 1)) =
          v.1 :: visibleNames ((r :: rs).drop (k + 1)) := by
        simp [visibleNames, hv]
      have hlen1 : ((r :: rs).drop (k + 1)).length + k + 1 = (r :: rs).length := by
        rw [List.length_drop]; omega
      cases names with
      | nil =>
        have hb : B[tn]? = some NUL := by simpa [driverBuffer] using getB
        obtain ⟨i1, i2⟩ := ih (te + k + 1) tn _ [] hTk1 hB hl1 hn
          (by simp only [List.length_nil] at hf ⊢; omega)
        rw [ListTestsLoop]
        simp only [h0, hk, hek, hb, Option.isSome_some, if_true]
        rw [status_print, printed_print]
        refine ⟨i1, ?_⟩
        rw [List.map_cons, i2, hvis]
        simp [mergeNames_nil_right, NextTestName.text]
      | cons d ds =>
        obtain ⟨hdne, hdc⟩ := hn d (List.mem_cons_self _ _)
        obtain ⟨c, d1, rfl⟩ := List.exists_cons_of_ne_nil hdne
        have hc : c ≠ NUL := fun e => hdc (by rw [e]; exact List.mem_cons_self _ _)
        have hb : B[tn]? = some c := by simpa [driverBuffer_cons] using getB
        have hs : cstring (B.drop tn) = some (c :: d1) := by
          rw [hB, driverBuffer_cons]; exact cstring_append _ _ hdc
        have hB1 := drop_driverBuffer B tn _ ds hB
        have hn1 : ∀ x ∈ ds, x ≠ [] ∧ IsCString x := fun x hx =>
          hn x (List.mem_cons_of_mem _ hx)
        have hcmp : strcmpAt v.1 (B.drop tn) = some (strcmp v.1 (c :: d1)) := by
          rw [hB, driverBuffer_cons]; exact strcmpAt_append _ _ _ hdc
        rw [ListTestsLoop]
        simp only [h0, hk, hek, hb, hs, hcmp, hc, Option.isSome_some, if_true, if_false]
        rw [hvis, mergeNames]
        by_cases hr0 : strcmp v.1 (c :: d1) = 0
        · obtain ⟨i1, i2⟩ := ih (te + k + 1) (tn + (c :: d1).length + 1) _ ds hTk1 hB1 hl1 hn1
            (by simp only [List.length_cons] at hf hlen1 ⊢; omega)
          simp only [if_pos hr0]
          rw [status_print, printed_print]
          refine ⟨i1, ?_⟩
          rw [List.map_cons, i2]
          simp [NextTestName.text]
        · by_cases hr1 : strcmp v.1 (c :: d1) < 0
          · obtain ⟨i1, i2⟩ := ih (te + k + 1) tn _ (((c :: d1)) :: ds) hTk1 hB hl1 hn
              (by simp only [List.length_cons] at hf hlen1 ⊢; omega)
            simp only [if_neg hr0, if_pos hr1]
            rw [status_print, printed_print]
            refine ⟨i1, ?_⟩
            rw [List.map_cons, i2]
            simp [NextTestName.text]
          · obtain ⟨i1, i2⟩ := ih (te + k) (tn + (c :: d1).length + 1) _ ds hTk hB1 hlk hn1
              (by simp only [List.length_cons] at hf hlen1 ⊢; omega)
            simp only [if_neg hr0, if_neg hr1]
            rw [status_print, printed_print]
            refine ⟨i1, ?_⟩
            rw [List.map_cons, i2, hvisk]
            simp [NextTestName.text]

theorem length_le_driverBuffer : ∀ (names : List (List Char)),
    names.length + 1 ≤ (driverBuffer names).length
  | [] => by simp [driverBuffer]
  | d :: ds => by
    have := length_le_driverBuffer ds
    rw [driverBuffer_cons]
    simp only [List.length_append, List.length_cons]
    omega

/-- The merge behaviour of `ListTests` where the code achieves it. If the last
named entry of the table does not start with `-` (or the table has no named
entry) and the driver's names are non-empty strings, `ListTests` returns
`ERROR_SUCCESS` without reading outside the buffer and prints the merge of the
listed table names with the driver's names. If moreover both lists are
strictly ascending by `strcmp`, the printed sequence is strictly ascending and
holds exactly the names of the two lists. -/
theorem ListTests_merges_when_last_entry_listed
    (entries : List (List Char × Option Nat)) (names : List (List Char))
    (hl : LastListed entries) (hn : ∀ d ∈ names, d ≠ [] ∧ IsCString d) :
    (ListTests (testTable entries) (.ok (driverBuffer names))).status = .returned ERROR_SUCCESS ∧
    (ListTests (testTable entries) (.ok (driverBuffer names))).printed.map NextTestName.text =
      mergeNames (visibleNames entries) names ∧
    ((∀ e ∈ entries, IsCString e.1) →
     (entries.map (fun e => e.1)).Pairwise (fun a b => strcmp a b < 0) →
     names.Pairwise (fun a b => strcmp a b < 0) →
     ((ListTests (testTable entries) (.ok (driverBuffer names))).printed.map
        NextTestName.text).Pairwise (fun a b => strcmp a b < 0) ∧
     ∀ n, n ∈ (ListTests (testTable entries) (.ok (driverBuffer names))).printed.map
        NextTestName.text ↔ (n ∈ visibleNames entries ∨ n ∈ names)) := by
  have hlen := length_le_driverBuffer names
  have hlen2 : (testTable entries).length = entries.length + 1 := by simp [testTable]
  have hmain := ListTestsLoop_merges (testTable entries) (driverBuffer names)
    ((testTable entries).length + (driverBuffer names).length + 1) 0 0 entries names
    rfl rfl hl hn (by omega)
  simp only [ListTests]
  refine ⟨hmain.1, hmain.2, ?_⟩
  intro hc hse hsn
  have cv : ∀ v ∈ visibleNames entries, IsCString v := by
    intro v hv
    obtain ⟨e, he, rfl⟩ := List.mem_map.mp (List.mem_filter.mp hv).1
    exact hc e he
  have cd : ∀ d ∈ names, IsCString d := fun d hd => (hn d hd).2
  rw [hmain.2]
  exact ⟨pairwise_mergeNames _ _ cv cd (hse.filter _) hsn,
    fun n => mem_mergeNames n _ _ cv cd⟩

theorem ListTests_merges_when_last_entry_listed_witness :
    (ListTests (testTable [("-Hidden".toList, some 1), ("Example".toList, some 2)])
        (.ok (driverBuffer ["Example".toList, "IoDevice".toList]))).printed.map
          NextTestName.text = ["Example".toList, "IoDevice".toList] ∧
    (ListTests (testTable [("-Hidden".toList, some 1), ("Example".toList, some 2)])
        (.ok (driverBuffer ["Example".toList, "IoDevice".toList]))).status =
          .returned ERROR_SUCCESS :=
  ⟨by decide,
   (ListTests_merges_when_last_entry_listed
     [("-Hidden".toList, some 1), ("Example".toList, some 2)]
     ["Example".toList, "IoDevice".toList]
     (by
       intro front e he
       have h2 := congrArg List.getLast? he
       simp at h2
       rw [← h2]
       decide)
     (by decide)).1⟩

end Kmtest

/-! File type tags, the sign flip and the size of the header block -/

namespace HiveData

/-- C11 fails on the code. The comment on `HBASE_BLOCK.Type` documents
`0 - Primary, 1 - Log`, and `HFILE_TYPE_PRIMARY` is 0 as documented, but the
header defines `HFILE_TYPE_LOG` as 2; the documented log value 1 is the value
of `HFILE_TYPE_ALTERNATE`. -/
theorem hfile_type_log_is_two :
    HFILE_TYPE_PRIMARY = DOCUMENTED_TYPE_PRIMARY ∧
    HFILE_TYPE_PRIMARY = 0 ∧
    HFILE_TYPE_LOG = 2 ∧
    HFILE_TYPE_LOG ≠ DOCUMENTED_TYPE_LOG ∧
    HFILE_TYPE_ALTERNATE = DOCUMENTED_TYPE_LOG := by
  refine ⟨by decide, by decide, by decide, by decide, by decide⟩

/-- C12, as stated, fails: the cell with `Size = -2^31`, the least 32-bit signed
value, is classified used, and the 32-bit negation of its size is again
`-2^31`, so the cell is still classified used and not free. -/
theorem flipSign_least_size_stays_used :
    LONG_MIN ≤ (HCELL.mk (-2147483648)).Size ∧
    (HCELL.mk (-2147483648)).Size ≤ LONG_MAX ∧
    IsUsedCell (HCELL.mk (-2147483648)) = true ∧
    flipSign (HCELL.mk (-2147483648)) = HCELL.mk (-2147483648) ∧
    IsFreeCell (flipSign (HCELL.mk (-2147483648))) = false ∧
    IsUsedCell (flipSign (HCELL.mk (-2147483648))) = true := by
  have hflip : flipSign (HCELL.mk (-2147483648)) = HCELL.mk (-2147483648) := by decide
  rw [hflip]
  decide

/-- C12, amended: for every cell whose 32-bit signed `Size` is classified used
by `IsUsedCell` and is not the least value `-2^31`, negating `Size` in 32-bit
two's-complement arithmetic yields a `Size` that `IsFreeCell` classifies as
free and whose magnitude equals the original magnitude; conversely negating any
`Size > 0` yields a `Size` classified used. -/
theorem flipSign_frees_used_cell (Cell : HCELL)
    (hlo : LONG_MIN ≤ Cell.Size) (hhi : Cell.Size ≤ LONG_MAX) :
    (IsUsedCell Cell = true → Cell.Size ≠ LONG_MIN →
      IsFreeCell (flipSign Cell) = true ∧
      (flipSign Cell).Size.natAbs = Cell.Size.natAbs) ∧
    (0 < Cell.Size →
      IsUsedCell (flipSign Cell) = true ∧
      (flipSign Cell).Size.natAbs = Cell.Size.natAbs) := by
  have hmin : LONG_MIN = -2147483648 := rfl
  have hmax : LONG_MAX = 2147483647 := rfl
  rw [hmin] at hlo
  rw [hmax] at hhi
  constructor
  · intro hused hne
    rw [hmin] at hne
    have hneg : Cell.Size < 0 := by simpa [IsUsedCell] using hused
    simp only [IsFreeCell, flipSign, toLONG, decide_eq_true_eq]
    omega
  · intro hpos
    simp only [IsUsedCell, flipSign, toLONG, decide_eq_true_eq]
    omega

theorem flipSign_frees_used_cell_witness :
    (flipSign (HCELL.mk (-8)) = HCELL.mk 8 ∧
     IsFreeCell (flipSign (HCELL.mk (-8))) = true ∧
     (flipSign (HCELL.mk (-8))).Size.natAbs = (HCELL.mk (-8)).Size.natAbs) ∧
    (IsUsedCell (flipSign (HCELL.mk 8)) = true ∧
     (flipSign (HCELL.mk 8)).Size.natAbs = (HCELL.mk 8).Size.natAbs) :=
  ⟨⟨by decide,
    (flipSign_frees_used_cell (HCELL.mk (-8)) (by decide) (by decide)).1
      (by decide) (by decide)⟩,
   (flipSign_frees_used_cell (HCELL.mk 8) (by decide) (by decide)).2 (by decide)⟩

/-- C13: the header block occupies exactly one 4096-byte block. With byte
packing and the members in declared order, `sizeof(HBASE_BLOCK)` is
0x1000 = `HBLOCK_SIZE` = `HV_BLOCK_SIZE` = `HSECTOR_SIZE * HSECTOR_COUNT`;
`RootCell` is at offset 0x24, `Length` at 0x28, the 64-byte `FileName` at 0x30,
`BootType` at 0xFF8 and `BootRecover` at 0xFFC. -/
theorem hbase_block_is_one_block :
    sizeofStruct HBASE_BLOCK = 0x1000 ∧
    sizeofStruct HBASE_BLOCK = HBLOCK_SIZE ∧
    HBLOCK_SIZE = HV_BLOCK_SIZE ∧
    HV_BLOCK_SIZE = 4096 ∧
    HV_BLOCK_SIZE = HSECTOR_SIZE * HSECTOR_COUNT ∧
    FIELD_OFFSET HBASE_BLOCK .RootCell = 0x24 ∧
    FIELD_OFFSET HBASE_BLOCK .Length = 0x28 ∧
    FIELD_OFFSET HBASE_BLOCK .FileName = 0x30 ∧
    sizeof HBASE_BLOCK_FIELD.FileName.type = 64 ∧
    FIELD_OFFSET HBASE_BLOCK .BootType = 0xFF8 ∧
    FIELD_OFFSET HBASE_BLOCK .BootRecover = 0xFFC ∧
    FIELD_OFFSET HBASE_BLOCK .BootRecover + sizeof HBASE_BLOCK_FIELD.BootRecover.type =
      sizeofStruct HBASE_BLOCK := by
  have hsize : sizeofStruct HBASE_BLOCK = 0x1000 := by decide
  have hblock : HBLOCK_SIZE = HV_BLOCK_SIZE ∧ HV_BLOCK_SIZE = 4096 ∧
      HV_BLOCK_SIZE = HSECTOR_SIZE * HSECTOR_COUNT := by decide
  refine ⟨hsize, hsize, hblock.1, hblock.2.1, hblock.2.2, ?_⟩
  decide

end HiveData
